import Mathlib

/-!
Verification of the go-cache repository (`src/cache.go`): a shallow
embedding of the thread-safe in-memory key-value store with optional
per-item expiration and its background cleanup janitor, together with
theorems settling the specification's claims.

Modelling conventions:
* Go `[]byte` is modelled as `List Nat` (one `Nat` per byte).
* Go `int64` nanosecond timestamps (`time.Now().UnixNano()`, `Item.Expiration`)
  are modelled as `Int`; the current instant is passed explicitly as a `now`
  argument to each operation that reads the clock.
* The Go map `map[string]Item` is modelled as an association list with at
  most one binding per key; map insertion replaces any previous binding.
* Go's `string` ↔ `[]byte` conversions are byte copies, a lossless
  bijection; we model the byte form of a string by its character-code
  sequence, which preserves exactly that round-trip property.
* `encoding/json` (`json.Marshal` / `json.Unmarshal`) is the external
  serialization collaborator: a non-bytes, non-string Go value is modelled
  by the outcome of `json.Marshal` on it (`none` when it is not
  serializable), and `Get` takes the unmarshalling function as a parameter.
* Mutex lock/unlock pairs guard each whole operation in the source; each
  operation is therefore modelled as an atomic function on the store state.
* The janitor goroutine and its unbuffered `stopCleanup` channel are
  modelled by an explicit state machine: a send on the unbuffered channel
  completes exactly when the janitor goroutine is ready to receive.
-/

namespace GoCache

/-- A Go byte slice, one `Nat` per byte. -/
abbrev Bytes := List Nat

/-- Item represents a cache item with value and expiration
(`src/cache.go`, type `Item`): `Value` holds the encoded bytes,
`Expiration` is a UnixNano timestamp with `0` meaning "no expiration",
`Created` is the write instant (informational only). -/
structure Item where
  Value : Bytes
  Expiration : Int
  Created : Int
deriving DecidableEq, Repr

/-- The cache's `items map[string]Item`, as an association list with at most
one binding per key. -/
abbrev CacheItems := List (String × Item)

/-- Go map lookup `c.items[key]`. -/
def lookup : CacheItems → String → Option Item
  | [], _ => none
  | (k, it) :: rest, key => if k = key then some it else lookup rest key

/-- Go map deletion `delete(c.items, key)`. -/
def eraseKey : CacheItems → String → CacheItems
  | [], _ => []
  | e :: rest, key => if e.1 = key then eraseKey rest key else e :: eraseKey rest key

/-- Go map insertion `c.items[key] = it`: replaces any previous binding. -/
def insertItem (c : CacheItems) (key : String) (it : Item) : CacheItems :=
  (key, it) :: eraseKey c key

/-- A Go value passed to `Set`/`SetWithExpiration` as `interface{}`:
a byte slice, a string, or any other value, the latter modelled by the
outcome of `json.Marshal` on it (`none` when the value is not
serializable, e.g. a channel or a function). -/
inductive Value where
  | bytes (b : Bytes)
  | str (s : String)
  | other (marshalled : Option Bytes)
deriving DecidableEq, Repr

/-- Go's `[]byte(s)`: the byte form of a string, modelled by its
character-code sequence (injective, so the round-trip is exact, matching
Go's lossless byte copy). -/
def strToBytes (s : String) : Bytes := s.toList.map Char.toNat

/-- Go's `string(bytes)`: inverse of `strToBytes` on its image. -/
def bytesToStr (b : Bytes) : String := String.mk (b.map Char.ofNat)

/-- The value-to-bytes conversion of `SetWithExpiration`'s `switch`:
byte slices and strings pass through verbatim, everything else goes
through `json.Marshal`, which may fail. -/
def encode : Value → Option Bytes
  | .bytes b => some b
  | .str s => some (strToBytes s)
  | .other m => m

/-- SetWithExpiration adds an item to the cache with a specific expiration
time (`src/cache.go` lines 48-83). Returns the updated mapping and the
returned error: when the `json.Marshal` branch fails the error is returned
before the lock is taken, leaving the mapping untouched; otherwise
`expiration` is `0` when `duration ≤ 0`, else `now + duration`, and the
item is installed under the write lock. -/
def SetWithExpiration (c : CacheItems) (key : String) (value : Value)
    (duration : Int) (now : Int) : CacheItems × Option String :=
  match encode value with
  | none => (c, some "json marshal error")
  | some bytes =>
    let expiration : Int := if duration ≤ 0 then 0 else now + duration
    (insertItem c key ⟨bytes, expiration, now⟩, none)

/-- Set adds an item to the cache with no expiration
(`src/cache.go` lines 42-45): delegates to `SetWithExpiration` with
duration `0`. -/
def Set (c : CacheItems) (key : String) (value : Value) (now : Int) :
    CacheItems × Option String :=
  SetWithExpiration c key value 0 now

/-- GetBytes retrieves raw byte data from the cache
(`src/cache.go` lines 86-101). Go's `(nil, false)` is modelled as `none`
and `(item.Value, true)` as `some item.Value`: the returned bytes are
non-nil exactly when `found` is true. -/
def GetBytes (c : CacheItems) (key : String) (now : Int) : Option Bytes :=
  match lookup c key with
  | none => none
  | some item =>
    if item.Expiration > 0 ∧ now > item.Expiration then none
    else some item.Value

/-- The `target interface{}` of `Get`: `nil`, a `*string`, or a pointer
decoded through `json.Unmarshal`. -/
inductive Target where
  | nilTarget
  | strTarget
  | jsonTarget
deriving DecidableEq, Repr

/-- Get retrieves and unmarshals an item from the cache
(`src/cache.go` lines 104-123). `dec` is the external `json.Unmarshal`
collaborator. The result models Go's `(bool, error)` return plus what was
written into `target`: `(found, .ok none)` when nothing was written,
`(true, .ok (some v))` when `v` was written, `(true, .error e)` when
unmarshalling failed. -/
def Get (dec : Bytes → Except String Value) (c : CacheItems) (key : String)
    (target : Target) (now : Int) : Bool × Except String (Option Value) :=
  match GetBytes c key now with
  | none => (false, .ok none)
  | some bytes =>
    match target with
    | .nilTarget => (true, .ok none)
    | .strTarget => (true, .ok (some (.str (bytesToStr bytes))))
    | .jsonTarget =>
      match dec bytes with
      | .ok v => (true, .ok (some v))
      | .error e => (true, .error e)

/-- GetString gets a string value from the cache
(`src/cache.go` lines 126-132). -/
def GetString (c : CacheItems) (key : String) (now : Int) : String × Bool :=
  match GetBytes c key now with
  | none => ("", false)
  | some bytes => (bytesToStr bytes, true)

/-- Delete removes an item from the cache (`src/cache.go` lines 135-139). -/
def Delete (c : CacheItems) (key : String) : CacheItems := eraseKey c key

/-- Exists checks if a key exists in the cache and is not expired
(`src/cache.go` lines 142-157); named `ExistsKey` here because `Exists`
is taken by the existential quantifier. -/
def ExistsKey (c : CacheItems) (key : String) (now : Int) : Bool :=
  match lookup c key with
  | none => false
  | some item =>
    if item.Expiration > 0 ∧ now > item.Expiration then false else true

/-- Flush removes all items from the cache (`src/cache.go` lines 160-164):
the mapping is replaced by a fresh empty one. -/
def Flush (_ : CacheItems) : CacheItems := []

/-- Count returns the number of items in the cache, including expired items
(`src/cache.go` lines 166-172): `len(c.items)`. -/
def Count (c : CacheItems) : Nat := c.length

/-- Whether `DeleteExpired`'s deletion condition
`v.Expiration > 0 && now > v.Expiration` holds for an item. -/
def isExpired (it : Item) (now : Int) : Bool :=
  decide (it.Expiration > 0 ∧ now > it.Expiration)

/-- DeleteExpired deletes all expired items from the cache
(`src/cache.go` lines 175-185): the loop over the mapping removes every
binding whose `Expiration > 0 && now > Expiration` and keeps the rest. -/
def DeleteExpired : CacheItems → Int → CacheItems
  | [], _ => []
  | e :: rest, now =>
    if isExpired e.2 now then DeleteExpired rest now
    else e :: DeleteExpired rest now

/-- TTL returns the time to live for a key (`src/cache.go` lines 210-229).
Go's `(0, errors.New ...)` returns are modelled as `.error`, the `(d, nil)`
returns as `.ok d` (a duration in nanoseconds). -/
def TTL (c : CacheItems) (key : String) (now : Int) : Except String Int :=
  match lookup c key with
  | none => .error "key not found"
  | some item =>
    if item.Expiration = 0 then .ok (-1)
    else if now > item.Expiration then .error "key expired"
    else .ok (item.Expiration - now)

/-- The janitor goroutine's lifecycle: never started (`cleanupInterval = 0`),
sitting in its `select` loop, or returned after receiving on
`stopCleanup`. -/
inductive JanitorState where
  | notStarted
  | running
  | stopped
deriving DecidableEq, Repr

/-- The `Cache` struct (`src/cache.go` lines 17-23): the item mapping, the
configured cleanup interval, and the state of the janitor goroutine
(standing in for the `stopCleanup` channel's receiver). -/
structure Cache where
  items : CacheItems
  cleanupInterval : Int
  janitor : JanitorState
deriving DecidableEq, Repr

/-- New creates a new Cache with the provided cleanup interval
(`src/cache.go` lines 27-40): the janitor goroutine is started only when
`cleanupInterval > 0`. -/
def New (cleanupInterval : Int) : Cache :=
  { items := []
    cleanupInterval := cleanupInterval
    janitor := if cleanupInterval > 0 then .running else .notStarted }

/-- StopJanitor stops the cleanup goroutine (`src/cache.go` lines 203-207):
when `cleanupInterval > 0` it sends on the unbuffered `stopCleanup`
channel. The send completes only when the janitor goroutine is in its
`select` loop ready to receive; with no live receiver the sending caller
blocks forever. Returns `(blocks, newState)` where `blocks` is true when
the call never returns. -/
def StopJanitor (c : Cache) : Bool × Cache :=
  if c.cleanupInterval > 0 then
    match c.janitor with
    | .running => (false, { c with janitor := .stopped })
    | _ => (true, c)
  else (false, c)

/-- One janitor tick (`src/cache.go` lines 192-199): when the goroutine is
running, a ticker firing makes it call `DeleteExpired`. -/
def janitorTick (c : Cache) (now : Int) : Cache :=
  match c.janitor with
  | .running => { c with items := DeleteExpired c.items now }
  | _ => c

/-- A store operation that mutates the mapping, used to reason about
"every later state" of the cache. -/
inductive Op where
  | opSet (key : String) (value : Value) (duration : Int) (now : Int)
  | opDelete (key : String)
  | opFlush
  | opDeleteExpired (now : Int)
deriving Repr

/-- Apply one mutating operation to the mapping (a failed `Set` leaves the
mapping untouched). -/
def step (c : CacheItems) : Op → CacheItems
  | .opSet k v d now => (SetWithExpiration c k v d now).1
  | .opDelete k => Delete c k
  | .opFlush => Flush c
  | .opDeleteExpired now => DeleteExpired c now

/-- Apply a sequence of mutating operations, oldest first. -/
def run (c : CacheItems) : List Op → CacheItems
  | [] => c
  | op :: ops => run (step c op) ops

/-- An operation that is not a `Delete` of `key`, not a `Flush`, and not a
replacing `Set` of `key` (a `Set` of `key` whose encoding fails does not
replace the entry). -/
def preservesKey (key : String) : Op → Prop
  | .opSet k v _ _ => k ≠ key ∨ encode v = none
  | .opDelete k => k ≠ key
  | .opFlush => False
  | .opDeleteExpired _ => True

instance decPreservesKey (key : String) : (op : Op) → Decidable (preservesKey key op)
  | .opSet k v _ _ => inferInstanceAs (Decidable (k ≠ key ∨ encode v = none))
  | .opDelete k => inferInstanceAs (Decidable (k ≠ key))
  | .opFlush => inferInstanceAs (Decidable False)
  | .opDeleteExpired _ => inferInstanceAs (Decidable True)

/-- A mapping is well formed when every stored `Expiration` is a valid
timestamp: either the never-expire sentinel `0` or a (nonnegative)
`UnixNano` instant. Every state the Go program can reach is well formed,
since `time.Now().UnixNano()` is nonnegative. -/
def WellFormed (c : CacheItems) : Prop :=
  ∀ e ∈ c, 0 ≤ e.2.Expiration

instance (c : CacheItems) : Decidable (WellFormed c) :=
  inferInstanceAs (Decidable (∀ e ∈ c, 0 ≤ e.2.Expiration))

/-- A Go map has at most one binding per key; the association-list model
carries this as distinctness of the stored keys. -/
def NodupKeys (c : CacheItems) : Prop := (c.map Prod.fst).Nodup

instance (c : CacheItems) : Decidable (NodupKeys c) :=
  inferInstanceAs (Decidable (c.map Prod.fst).Nodup)

/-- An operation reads a nonnegative clock (every real `UnixNano` instant
is); used to show well-formedness is an invariant of execution. -/
def nonnegClock : Op → Prop
  | .opSet _ _ _ now => 0 ≤ now
  | _ => True

/-- Go's `string([]byte(s))` round-trip is the identity; in the model,
decoding the character-code sequence recovers the string. -/
theorem bytesToStr_strToBytes (s : String) : bytesToStr (strToBytes s) = s := by
  simp only [bytesToStr, strToBytes, List.map_map]
  have h : (Char.ofNat ∘ Char.toNat) = id := by
    funext c
    exact Char.ofNat_toNat c
  simp [h]

/-- Deleting one key leaves lookups of other keys unchanged. -/
theorem lookup_eraseKey_ne (c : CacheItems) (k' key : String) (h : k' ≠ key) :
    lookup (eraseKey c k') key = lookup c key := by
  induction c with
  | nil => rfl
  | cons e rest ih =>
    by_cases he : e.1 = k'
    · have hne : e.1 ≠ key := by
        rw [he]
        exact h
      simp only [eraseKey, if_pos he, lookup, if_neg hne]
      exact ih
    · simp only [eraseKey, lookup, he, if_neg he]
      by_cases hk : e.1 = key
      · simp [lookup, hk]
      · simp [lookup, hk, ih]

/-- Inserting at one key leaves lookups of other keys unchanged. -/
theorem lookup_insertItem_ne (c : CacheItems) (k' key : String) (it : Item)
    (h : k' ≠ key) : lookup (insertItem c k' it) key = lookup c key := by
  simp only [insertItem, lookup, if_neg h]
  exact lookup_eraseKey_ne c k' key h

/-- Inserting at a key makes that key look up the inserted item. -/
theorem lookup_insertItem_self (c : CacheItems) (key : String) (it : Item) :
    lookup (insertItem c key it) key = some it := by
  simp [insertItem, lookup]

/-- A key outside the stored keys looks up to nothing. -/
theorem lookup_eq_none_of_not_mem (c : CacheItems) (key : String)
    (h : key ∉ c.map Prod.fst) : lookup c key = none := by
  induction c with
  | nil => rfl
  | cons e rest ih =>
    simp only [List.map_cons, List.mem_cons] at h
    push_neg at h
    have hne : e.1 ≠ key := fun he => h.1 he.symm
    simp only [lookup, if_neg hne]
    exact ih h.2

/-- `DeleteExpired` only removes bindings: the result is a sublist. -/
theorem DeleteExpired_sublist (c : CacheItems) (now : Int) :
    List.Sublist (DeleteExpired c now) c := by
  induction c with
  | nil => exact List.Sublist.refl []
  | cons e rest ih =>
    by_cases hx : isExpired e.2 now
    · simpa [DeleteExpired, hx] using ih.cons e
    · simpa [DeleteExpired, hx] using ih.cons₂ e

/-- A binding that is not expired survives `DeleteExpired` (no key
distinctness needed: the bindings before the first one for `key` have
other keys, and removal keeps relative order). -/
theorem lookup_DeleteExpired_of_not_expired (c : CacheItems) (now : Int)
    (key : String) (it : Item) (hl : lookup c key = some it)
    (hx : isExpired it now = false) :
    lookup (DeleteExpired c now) key = some it := by
  induction c with
  | nil => simp [lookup] at hl
  | cons e rest ih =>
    by_cases hk : e.1 = key
    · simp only [lookup, if_pos hk] at hl
      obtain rfl : e.2 = it := by injection hl
      simp [DeleteExpired, hx, lookup, hk]
    · simp only [lookup, if_neg hk] at hl
      by_cases hex : isExpired e.2 now
      · simp [DeleteExpired, hex, ih hl]
      · simp [DeleteExpired, hex, lookup, hk, ih hl]

/-- An absent key stays absent after `DeleteExpired`. -/
theorem lookup_DeleteExpired_of_none (c : CacheItems) (now : Int)
    (key : String) (hl : lookup c key = none) :
    lookup (DeleteExpired c now) key = none := by
  induction c with
  | nil => rfl
  | cons e rest ih =>
    by_cases hk : e.1 = key
    · simp [lookup, hk] at hl
    · simp only [lookup, if_neg hk] at hl
      by_cases hex : isExpired e.2 now
      · simp [DeleteExpired, hex, ih hl]
      · simp [DeleteExpired, hex, lookup, hk, ih hl]

/-- With distinct keys, an expired binding is removed by `DeleteExpired`. -/
theorem lookup_DeleteExpired_of_expired (c : CacheItems) (now : Int)
    (key : String) (it : Item) (hnd : NodupKeys c)
    (hl : lookup c key = some it) (hx : isExpired it now = true) :
    lookup (DeleteExpired c now) key = none := by
  induction c with
  | nil => simp [lookup] at hl
  | cons e rest ih =>
    simp only [NodupKeys, List.map_cons, List.nodup_cons] at hnd
    by_cases hk : e.1 = key
    · simp only [lookup, if_pos hk] at hl
      obtain rfl : e.2 = it := by injection hl
      simp only [DeleteExpired, if_pos hx]
      refine lookup_eq_none_of_not_mem _ _ (fun hmem => hnd.1 ?_)
      rw [hk]
      exact ((DeleteExpired_sublist rest now).map Prod.fst).mem hmem
    · simp only [lookup, if_neg hk] at hl
      by_cases hex : isExpired e.2 now
      · simp [DeleteExpired, hex, ih hnd.2 hl]
      · simp [DeleteExpired, hex, lookup, hk, ih hnd.2 hl]

/-- A successful lookup exhibits a binding of the list. -/
theorem mem_of_lookup_eq_some (c : CacheItems) (key : String) (it : Item)
    (hl : lookup c key = some it) : (key, it) ∈ c := by
  induction c with
  | nil => simp [lookup] at hl
  | cons e rest ih =>
    by_cases hk : e.1 = key
    · simp only [lookup, if_pos hk] at hl
      obtain rfl : e.2 = it := by injection hl
      have he : (key, e.2) = e := by
        rw [← hk]
      exact List.mem_cons.mpr (Or.inl he)
    · simp only [lookup, if_neg hk] at hl
      exact List.mem_cons_of_mem e (ih hl)

/-- A never-expiring binding survives any sequence of mutating operations
that preserves its key: deletes of other keys, sets of other keys, failed
sets of its own key, and expired-entry purges. -/
theorem lookup_run_eternal (key : String) (it : Item)
    (h0 : it.Expiration = 0) :
    ∀ (ops : List Op) (c : CacheItems), (∀ op ∈ ops, preservesKey key op) →
      lookup c key = some it → lookup (run c ops) key = some it := by
  intro ops
  induction ops with
  | nil =>
    intro c _ hl
    exact hl
  | cons op ops ih =>
    intro c hpres hl
    have hop : preservesKey key op := hpres op (List.mem_cons_self op ops)
    have hrest : ∀ o ∈ ops, preservesKey key o :=
      fun o ho => hpres o (List.mem_cons_of_mem op ho)
    refine ih _ hrest ?_
    cases op with
    | opSet k v d now =>
      rcases hop with hne | henc
      · cases hv : encode v with
        | none => simpa [step, SetWithExpiration, hv] using hl
        | some b =>
          simp only [step, SetWithExpiration, hv]
          rw [lookup_insertItem_ne c k key _ hne]
          exact hl
      · simpa [step, SetWithExpiration, henc] using hl
    | opDelete k =>
      simp only [step, Delete]
      rw [lookup_eraseKey_ne c k key hop]
      exact hl
    | opFlush => exact hop.elim
    | opDeleteExpired now =>
      simp only [step]
      exact lookup_DeleteExpired_of_not_expired c now key it hl
        (by simp [isExpired, h0])

/-- Claim C1 (code bug, evaluation at the failing input): on a cache built
with a positive cleanup interval the first `StopJanitor` returns without
blocking, but a second `StopJanitor` blocks the caller forever — it sends
on the unbuffered `stopCleanup` channel after the janitor goroutine has
already returned, so no receiver ever completes the send.  Only the
zero-interval case is the safe no-op the claim requires. -/
theorem stopJanitor_second_call_blocks :
    (StopJanitor (New 1)).1 = false ∧
    (StopJanitor (StopJanitor (New 1)).2).1 = true ∧
    (StopJanitor (New 0)).1 = false := by
  decide

/-- Claim C2 (counterexample): a cache holding one entry with
`expiresAt = 5` purged at `now = 5` keeps the entry, although its
expiration is nonzero and `≤ now`; the claim predicts removal, so the
claim's "≤ now" boundary is wrong — the code removes only entries with
`now` strictly greater than the expiration. -/
theorem deleteExpired_boundary_kept :
    lookup (DeleteExpired [("a", ⟨[], 5, 1⟩)] 5) "a" = some ⟨[], 5, 1⟩ ∧
    (5 : Int) ≠ 0 ∧ (5 : Int) ≤ 5 := by
  decide

/-- Claim C2 (amended): for every cache state (well-formed timestamps,
distinct keys) and every instant `now`, `deleteExpired` removes exactly the
entries whose `expiresAt` is nonzero and strictly earlier than `now`
(`now > expiresAt`), and leaves every other entry — the never-expiring
ones and the entries whose expiration has not strictly passed — unchanged
in the mapping. -/
theorem deleteExpired_removes_exactly_strictly_expired
    (c : CacheItems) (now : Int) (key : String)
    (hnd : NodupKeys c) (hwf : WellFormed c) :
    (∀ it, lookup c key = some it → it.Expiration ≠ 0 → now > it.Expiration →
      lookup (DeleteExpired c now) key = none) ∧
    (∀ it, lookup c key = some it → ¬(it.Expiration ≠ 0 ∧ now > it.Expiration) →
      lookup (DeleteExpired c now) key = some it) ∧
    (lookup c key = none → lookup (DeleteExpired c now) key = none) := by
  refine ⟨fun it hl hne hgt => ?_, fun it hl hkeep => ?_,
    fun hl => lookup_DeleteExpired_of_none c now key hl⟩
  · have hmem : (key, it) ∈ c := mem_of_lookup_eq_some c key it hl
    have hnn : 0 ≤ it.Expiration := hwf (key, it) hmem
    have hpos : it.Expiration > 0 := lt_of_le_of_ne hnn (Ne.symm hne)
    exact lookup_DeleteExpired_of_expired c now key it hnd hl
      (by simp [isExpired, hpos, hgt])
  · refine lookup_DeleteExpired_of_not_expired c now key it hl ?_
    by_cases h0 : it.Expiration = 0
    · simp [isExpired, h0]
    · have : ¬ now > it.Expiration := fun hgt => hkeep ⟨h0, hgt⟩
      simp [isExpired, this]

/-- Witness for the amended C2: a purge at `now = 20` removes the entry
whose expiration `10` has strictly passed and keeps the never-expiring
entry. -/
theorem deleteExpired_removes_exactly_strictly_expired_witness :
    lookup (DeleteExpired [("k", ⟨[], 10, 3⟩), ("j", ⟨[], 0, 3⟩)] 20) "k" =
      none ∧
    lookup (DeleteExpired [("k", ⟨[], 10, 3⟩), ("j", ⟨[], 0, 3⟩)] 20) "j" =
      some ⟨[], 0, 3⟩ :=
  ⟨(deleteExpired_removes_exactly_strictly_expired
      [("k", ⟨[], 10, 3⟩), ("j", ⟨[], 0, 3⟩)] 20 "k" (by decide)
      (by decide)).1 ⟨[], 10, 3⟩ (by decide) (by decide) (by decide),
   (deleteExpired_removes_exactly_strictly_expired
      [("k", ⟨[], 10, 3⟩), ("j", ⟨[], 0, 3⟩)] 20 "j" (by decide)
      (by decide)).2.1 ⟨[], 0, 3⟩ (by decide) (by decide)⟩

/-- Claim C3: on a well-formed cache state, `GetBytes` reports not-found,
and `Exists` returns false, exactly when the key is absent or present with
a nonzero expiration that `now` has strictly passed; the two operations
apply the same expiration check, so a logically expired entry is treated
as absent on the read path even before it is physically purged. -/
theorem getBytes_found_iff (c : CacheItems) (key : String) (now : Int)
    (hwf : WellFormed c) :
    ((GetBytes c key now).isSome = false ↔
      lookup c key = none ∨
        ∃ it, lookup c key = some it ∧ it.Expiration ≠ 0 ∧
          now > it.Expiration) ∧
    ExistsKey c key now = (GetBytes c key now).isSome := by
  cases hl : lookup c key with
  | none =>
    constructor
    · simp [GetBytes, hl]
    · simp [ExistsKey, GetBytes, hl]
  | some it =>
    have hnn : 0 ≤ it.Expiration :=
      hwf (key, it) (mem_of_lookup_eq_some c key it hl)
    by_cases hx : it.Expiration > 0 ∧ now > it.Expiration
    · refine ⟨?_, by simp [ExistsKey, GetBytes, hl, hx]⟩
      simp only [GetBytes, hl, if_pos hx, Option.isSome_none]
      constructor
      · intro _
        exact Or.inr ⟨it, rfl, ne_of_gt hx.1, hx.2⟩
      · intro _
        trivial
    · refine ⟨?_, by simp [ExistsKey, GetBytes, hl, hx]⟩
      simp only [GetBytes, hl, if_neg hx, Option.isSome_some]
      constructor
      · intro h
        exact absurd h (by simp)
      · rintro (h | ⟨it', hit', hne', hgt'⟩)
        · exact absurd h (by simp)
        · obtain rfl : it = it' := by injection hit'
          have hpos : it.Expiration > 0 := lt_of_le_of_ne hnn (Ne.symm hne')
          exact absurd ⟨hpos, hgt'⟩ hx

/-- Witness for C3: an entry whose expiration `5` has passed at `now = 9`
is reported absent by `GetBytes`, and `Exists` agrees with `GetBytes`. -/
theorem getBytes_found_iff_witness :
    ((GetBytes [("k", ⟨[7], 5, 1⟩)] "k" 9).isSome = false) ∧
    ExistsKey [("k", ⟨[7], 5, 1⟩)] "k" 9 =
      (GetBytes [("k", ⟨[7], 5, 1⟩)] "k" 9).isSome :=
  ⟨(getBytes_found_iff [("k", ⟨[7], 5, 1⟩)] "k" 9 (by decide)).1.mpr
      (Or.inr ⟨⟨[7], 5, 1⟩, by decide, by decide, by decide⟩),
   (getBytes_found_iff [("k", ⟨[7], 5, 1⟩)] "k" 9 (by decide)).2⟩

/-- Claim C4: after a `Set` with no ttl of an encodable value, in every
later state reached by operations that do not delete the key, flush, or
replace the key, the stored bytes are recovered exactly: `GetBytes`
returns the encoded bytes, a stored byte slice comes back verbatim, a
stored string comes back verbatim through `GetString` and through `Get`
with a string target (no re-encoding), and a generic value comes back
through `Get` whenever the external decoder inverts its encoding. -/
theorem set_then_get_roundtrip (c : CacheItems) (key : String) (v : Value)
    (bv : Bytes) (now : Int) (ops : List Op) (now' : Int)
    (dec : Bytes → Except String Value)
    (henc : encode v = some bv)
    (hpres : ∀ op ∈ ops, preservesKey key op) :
    GetBytes (run (Set c key v now).1 ops) key now' = some bv ∧
    (∀ b, v = .bytes b →
      GetBytes (run (Set c key v now).1 ops) key now' = some b) ∧
    (∀ s, v = .str s →
      GetString (run (Set c key v now).1 ops) key now' = (s, true) ∧
      Get dec (run (Set c key v now).1 ops) key .strTarget now' =
        (true, .ok (some (.str s)))) ∧
    (dec bv = .ok v →
      Get dec (run (Set c key v now).1 ops) key .jsonTarget now' =
        (true, .ok (some v))) := by
  have hset : (Set c key v now).1 = insertItem c key ⟨bv, 0, now⟩ := by
    simp [Set, SetWithExpiration, henc]
  have hrun : lookup (run (Set c key v now).1 ops) key = some ⟨bv, 0, now⟩ := by
    refine lookup_run_eternal key ⟨bv, 0, now⟩ rfl ops _ hpres ?_
    rw [hset]
    exact lookup_insertItem_self c key ⟨bv, 0, now⟩
  have hbytes : GetBytes (run (Set c key v now).1 ops) key now' = some bv := by
    simp [GetBytes, hrun]
  refine ⟨hbytes, fun b hb => ?_, fun s hs => ?_, fun hdec => ?_⟩
  · rw [hbytes]
    rw [hb] at henc
    simp only [encode] at henc
    rw [henc]
  · have hbv : bv = strToBytes s := by
      rw [hs] at henc
      simp only [encode] at henc
      exact (Option.some.inj henc).symm
    constructor
    · simp [GetString, hbytes, hbv, bytesToStr_strToBytes]
    · simp [Get, hbytes, hbv, bytesToStr_strToBytes]
  · simp [Get, hbytes, hdec]

/-- Witness for C4: set `"k"` to the string `"ab"` with no ttl, then delete
another key and purge; `GetString "k"` still returns `("ab", true)` and the
raw bytes are the verbatim byte form of `"ab"`. -/
theorem set_then_get_roundtrip_witness :
    GetString (run (Set [] "k" (.str "ab") 1).1
        [Op.opDelete "x", Op.opDeleteExpired 100]) "k" 999 = ("ab", true) ∧
    GetBytes (run (Set [] "k" (.str "ab") 1).1
        [Op.opDelete "x", Op.opDeleteExpired 100]) "k" 999 =
      some (strToBytes "ab") :=
  ⟨((set_then_get_roundtrip [] "k" (.str "ab") (strToBytes "ab") 1
      [Op.opDelete "x", Op.opDeleteExpired 100] 999
      (fun _ => .error "unused") rfl (by decide)).2.2.1 "ab" rfl).1,
   (set_then_get_roundtrip [] "k" (.str "ab") (strToBytes "ab") 1
      [Op.opDelete "x", Op.opDeleteExpired 100] 999
      (fun _ => .error "unused") rfl (by decide)).1⟩

/-- Claim C5: `TTL` fails with "key not found" on an absent key; returns
`-1` (no error) on a never-expiring key; fails with "key expired" — a
different error from "key not found" — on a key whose nonzero expiration
`now` has strictly passed; and otherwise returns the remaining duration
`expiresAt - now`. -/
theorem ttl_cases (c : CacheItems) (key : String) (now : Int) :
    (lookup c key = none → TTL c key now = .error "key not found") ∧
    (∀ it, lookup c key = some it →
      (it.Expiration = 0 → TTL c key now = .ok (-1)) ∧
      (it.Expiration ≠ 0 → now > it.Expiration →
        TTL c key now = .error "key expired" ∧
        TTL c key now ≠ .error "key not found") ∧
      (it.Expiration ≠ 0 → ¬ now > it.Expiration →
        TTL c key now = .ok (it.Expiration - now))) := by
  refine ⟨fun hl => by simp [TTL, hl], fun it hl => ⟨fun h0 => ?_,
    fun hne hgt => ⟨?_, ?_⟩, fun hne hle => ?_⟩⟩
  · simp [TTL, hl, h0]
  · simp [TTL, hl, hne, hgt]
  · simp [TTL, hl, hne, hgt]
  · simp [TTL, hl, hne, hle]

/-- Witness for C5: all four branches at concrete states — absent key,
never-expiring key, expired key (with the two errors distinct), and a live
key with `expiresAt = 30`, `now = 10` giving duration `20`. -/
theorem ttl_cases_witness :
    TTL [] "k" 10 = .error "key not found" ∧
    TTL [("k", ⟨[], 0, 1⟩)] "k" 10 = .ok (-1) ∧
    TTL [("k", ⟨[], 5, 1⟩)] "k" 10 = .error "key expired" ∧
    TTL [("k", ⟨[], 5, 1⟩)] "k" 10 ≠ .error "key not found" ∧
    TTL [("k", ⟨[], 30, 1⟩)] "k" 10 = .ok 20 :=
  ⟨(ttl_cases [] "k" 10).1 (by decide),
   ((ttl_cases [("k", ⟨[], 0, 1⟩)] "k" 10).2 ⟨[], 0, 1⟩ (by decide)).1
     (by decide),
   (((ttl_cases [("k", ⟨[], 5, 1⟩)] "k" 10).2 ⟨[], 5, 1⟩ (by decide)).2.1
     (by decide) (by decide)).1,
   (((ttl_cases [("k", ⟨[], 5, 1⟩)] "k" 10).2 ⟨[], 5, 1⟩ (by decide)).2.1
     (by decide) (by decide)).2,
   (((ttl_cases [("k", ⟨[], 30, 1⟩)] "k" 10).2 ⟨[], 30, 1⟩ (by decide)).2.2
     (by decide) (by decide))⟩

/-- Claim C6: `SetWithExpiration` errors exactly when the value cannot be
encoded, in which case the mapping is left completely untouched (the error
returns before the write lock is taken); on success the only mapping
change is the insertion of the fully-built entry. -/
theorem setWithExpiration_atomic (c : CacheItems) (key : String) (v : Value)
    (d now : Int) :
    ((SetWithExpiration c key v d now).2 ≠ none ↔ encode v = none) ∧
    (encode v = none → (SetWithExpiration c key v d now).1 = c) ∧
    (∀ b, encode v = some b →
      (SetWithExpiration c key v d now).1 =
        insertItem c key ⟨b, if d ≤ 0 then 0 else now + d, now⟩) := by
  cases hv : encode v with
  | none => simp [SetWithExpiration, hv]
  | some b => simp [SetWithExpiration, hv]

/-- Witness for C6: a non-serializable value leaves the one-entry mapping
untouched, and a serializable one installs exactly the new entry. -/
theorem setWithExpiration_atomic_witness :
    (SetWithExpiration [("j", ⟨[9], 0, 0⟩)] "k" (.other none) 3 1).1 =
      [("j", ⟨[9], 0, 0⟩)] ∧
    (SetWithExpiration [] "k" (.bytes [2]) 3 1).1 =
      insertItem [] "k" ⟨[2], 4, 1⟩ :=
  ⟨(setWithExpiration_atomic [("j", ⟨[9], 0, 0⟩)] "k" (.other none) 3 1).2.1
      rfl,
   by
    have h := (setWithExpiration_atomic [] "k" (.bytes [2]) 3 1).2.2 [2] rfl
    simpa using h⟩

/-- Claim C7: a `SetWithExpiration` with ttl ≤ 0 (including exactly zero)
stores the never-expire sentinel `0`; thereafter, in every state reached
by operations that preserve the key, `Exists` is true at every instant and
`TTL` returns the infinite sentinel `-1` — an immediate expiry cannot be
expressed through the ttl parameter. -/
theorem setWithExpiration_nonpositive_never_expires
    (c : CacheItems) (key : String) (v : Value) (bv : Bytes) (d now : Int)
    (hd : d ≤ 0) (henc : encode v = some bv) :
    lookup (SetWithExpiration c key v d now).1 key = some ⟨bv, 0, now⟩ ∧
    (∀ ops now', (∀ op ∈ ops, preservesKey key op) →
      ExistsKey (run (SetWithExpiration c key v d now).1 ops) key now' =
        true ∧
      TTL (run (SetWithExpiration c key v d now).1 ops) key now' =
        .ok (-1)) := by
  have hset : (SetWithExpiration c key v d now).1 =
      insertItem c key ⟨bv, 0, now⟩ := by
    simp [SetWithExpiration, henc, if_pos hd]
  have hl : lookup (SetWithExpiration c key v d now).1 key =
      some ⟨bv, 0, now⟩ := by
    rw [hset]
    exact lookup_insertItem_self c key ⟨bv, 0, now⟩
  refine ⟨hl, fun ops now' hpres => ?_⟩
  have hrun : lookup (run (SetWithExpiration c key v d now).1 ops) key =
      some ⟨bv, 0, now⟩ :=
    lookup_run_eternal key ⟨bv, 0, now⟩ rfl ops _ hpres hl
  constructor
  · simp [ExistsKey, hrun]
  · simp [TTL, hrun]

/-- Witness for C7: a set with ttl `-4` stores the sentinel; after a purge
at instant `1000` the key still exists and its TTL is the infinite `-1`. -/
theorem setWithExpiration_nonpositive_never_expires_witness :
    ExistsKey (run (SetWithExpiration [] "k" (.bytes [1]) (-4) 2).1
        [Op.opDeleteExpired 1000]) "k" 5000 = true ∧
    TTL (run (SetWithExpiration [] "k" (.bytes [1]) (-4) 2).1
        [Op.opDeleteExpired 1000]) "k" 5000 = .ok (-1) :=
  (setWithExpiration_nonpositive_never_expires [] "k" (.bytes [1]) [1]
      (-4) 2 (by decide) rfl).2 [Op.opDeleteExpired 1000] 5000 (by decide)

/-- Claim C8: `Count` is the full length of the mapping; the number of
entries that survive a purge never exceeds it, and there is a state (one
entry whose expiration has passed) where the key no longer exists on the
read path yet is still counted — so count may exceed the number of keys
for which `Exists` is true. -/
theorem count_includes_expired :
    (∀ c : CacheItems, Count c = c.length) ∧
    (∀ (c : CacheItems) (now : Int), Count (DeleteExpired c now) ≤ Count c) ∧
    (∃ (c : CacheItems) (now : Int) (key : String),
      lookup c key ≠ none ∧ ExistsKey c key now = false ∧
      Count (DeleteExpired c now) < Count c) := by
  refine ⟨fun c => rfl, fun c now => (DeleteExpired_sublist c now).length_le,
    ⟨[("k", ⟨[], 1, 0⟩)], 5, "k", by decide, by decide, by decide⟩⟩

/-- Claim C9: on a key stored with the zero expiration sentinel, `TTL`
returns exactly the duration `-1` together with no error — the infinite
marker is a negative duration on the success path, never an error. -/
theorem ttl_never_expiring_neg_one (c : CacheItems) (key : String)
    (it : Item) (now : Int) (hl : lookup c key = some it)
    (h0 : it.Expiration = 0) :
    TTL c key now = .ok (-1) ∧ (-1 : Int) < 0 ∧
    ∀ e : String, TTL c key now ≠ .error e := by
  refine ⟨by simp [TTL, hl, h0], by decide, fun e => by simp [TTL, hl, h0]⟩

/-- Witness for C9: a concrete never-expiring entry yields `TTL = .ok (-1)`
and no error at all. -/
theorem ttl_never_expiring_neg_one_witness :
    TTL [("k", ⟨[3], 0, 7⟩)] "k" 12345 = .ok (-1) ∧
    TTL [("k", ⟨[3], 0, 7⟩)] "k" 12345 ≠ .error "key not found" :=
  ⟨(ttl_never_expiring_neg_one [("k", ⟨[3], 0, 7⟩)] "k" ⟨[3], 0, 7⟩ 12345
      (by decide) (by decide)).1,
   (ttl_never_expiring_neg_one [("k", ⟨[3], 0, 7⟩)] "k" ⟨[3], 0, 7⟩ 12345
      (by decide) (by decide)).2.2 "key not found"⟩

/-- Claim C10: when a key is present and not expired, `Get` with a nil
target returns `(true, nil)` and writes nothing, whatever the external
decoder does — the result is the same for any two decoders, so a nil
target is a pure existence check that can never produce a decode error. -/
theorem get_nil_target_no_decode (dec dec' : Bytes → Except String Value)
    (c : CacheItems) (key : String) (now : Int)
    (h : (GetBytes c key now).isSome = true) :
    Get dec c key .nilTarget now = (true, .ok none) ∧
    Get dec c key .nilTarget now = Get dec' c key .nilTarget now := by
  cases hg : GetBytes c key now with
  | none =>
    rw [hg] at h
    simp at h
  | some bytes => simp [Get, hg]

/-- Witness for C10: with a decoder that always fails, `Get` on a live key
with a nil target still returns `(true, nil)`. -/
theorem get_nil_target_no_decode_witness :
    Get (fun _ => .error "always fails") [("k", ⟨[1, 2], 0, 0⟩)] "k"
      .nilTarget 9 = (true, .ok none) :=
  (get_nil_target_no_decode (fun _ => .error "always fails")
      (fun _ => .ok (.bytes [])) [("k", ⟨[1, 2], 0, 0⟩)] "k" 9 (by decide)).1

/-- Deletion yields a sublist of the original bindings. -/
theorem eraseKey_sublist (c : CacheItems) (key : String) :
    List.Sublist (eraseKey c key) c := by
  induction c with
  | nil => exact List.Sublist.refl []
  | cons e rest ih =>
    by_cases he : e.1 = key
    · simpa [eraseKey, he] using ih.cons e
    · simpa [eraseKey, he] using ih.cons₂ e

/-- After deleting a key, it is not among the stored keys. -/
theorem not_mem_keys_eraseKey (c : CacheItems) (key : String) :
    key ∉ (eraseKey c key).map Prod.fst := by
  induction c with
  | nil => simp [eraseKey]
  | cons e rest ih =>
    by_cases he : e.1 = key
    · simpa [eraseKey, he] using ih
    · simp only [eraseKey, if_neg he, List.map_cons, List.mem_cons]
      push_neg
      exact ⟨fun h => he h.symm, ih⟩

/-- Key distinctness is an invariant of every mutating operation, so every
reachable mapping state satisfies `NodupKeys` — the model-level image of a
Go map having one binding per key. -/
theorem NodupKeys_step (c : CacheItems) (op : Op) (h : NodupKeys c) :
    NodupKeys (step c op) := by
  cases op with
  | opSet k v d now =>
    cases hv : encode v with
    | none => simpa [step, SetWithExpiration, hv] using h
    | some b =>
      simp only [step, SetWithExpiration, hv, insertItem, NodupKeys,
        List.map_cons, List.nodup_cons]
      exact ⟨not_mem_keys_eraseKey c k,
        h.sublist ((eraseKey_sublist c k).map Prod.fst)⟩
  | opDelete k =>
    exact h.sublist ((eraseKey_sublist c k).map Prod.fst)
  | opFlush => simp [step, Flush, NodupKeys]
  | opDeleteExpired now =>
    exact h.sublist ((DeleteExpired_sublist c now).map Prod.fst)

/-- Timestamp well-formedness is an invariant of every mutating operation
performed at a nonnegative clock instant, so every mapping state the Go
program can reach satisfies `WellFormed`. -/
theorem WellFormed_step (c : CacheItems) (op : Op) (hc : nonnegClock op)
    (h : WellFormed c) : WellFormed (step c op) := by
  cases op with
  | opSet k v d now =>
    cases hv : encode v with
    | none => simpa [step, SetWithExpiration, hv] using h
    | some b =>
      simp only [step, SetWithExpiration, hv, insertItem]
      intro e he
      rcases List.mem_cons.mp he with rfl | hmem
      · show (0 : Int) ≤ if d ≤ 0 then 0 else now + d
        have hnow : (0 : Int) ≤ now := hc
        by_cases hd : d ≤ 0
        · simp [hd]
        · simp only [if_neg hd]
          omega
      · exact h e ((eraseKey_sublist c k).subset hmem)
  | opDelete k =>
    exact fun e he => h e ((eraseKey_sublist c k).subset he)
  | opFlush => simp [step, Flush, WellFormed]
  | opDeleteExpired now =>
    exact fun e he => h e ((DeleteExpired_sublist c now).subset he)

end GoCache
